import Mathlib

/-!
Verification of the scotus-predictor repository's core presentation logic:
the case-name highlighter (`italicizeCaseNames`), the docket merger
(`getFullDocket`), the home-page sorter (`sortCases`), the client-side
filter/grouper (`DocketSection`), and the vote-side classifier
(`CaseDetailClient`).  JavaScript strings are modelled as `List Char`,
JavaScript's stable `Array.prototype.sort` as insertion sort, and the
regex-split of the highlighter as a longest-first literal-alternation
scanner, exactly mirroring the escaped alternation the source compiles.
-/

set_option maxHeartbeats 1000000

namespace Scotus

/-- JavaScript strings, modelled as lists of characters. -/
abbrev Str := List Char

/-- Model of JavaScript `String.prototype.includes`: `containsSub s sub`
is `true` iff `sub` occurs contiguously inside `s`. -/
def containsSub : Str → Str → Bool
  | [], sub => sub.isEmpty
  | c :: t, sub => sub.isPrefixOf (c :: t) || containsSub t sub

/-- Model of JavaScript `String.prototype.toLowerCase` (ASCII range). -/
def lower (s : Str) : Str := s.map Char.toLower

/-- Whitespace characters recognised by the model of `String.prototype.trim`. -/
def isWS (c : Char) : Bool :=
  c = ' ' || c = '\t' || c = '\n' || c = '\r' || c = '\x0b' || c = '\x0c'

/-- Model of JavaScript `String.prototype.trim`. -/
def jsTrim (s : Str) : Str :=
  ((s.dropWhile isWS).reverse.dropWhile isWS).reverse

/-- Decimal rendering of a natural number, as in JS template interpolation. -/
def natToStr (n : Nat) : Str := (Nat.repr n).data

/-! ### Case Name Highlighter (src/unnamed/part_000 / part_002, src/scotus-website/src/lib/formatters.js) -/

/-- The regex metacharacters escaped by the highlighter's
`.replace(/[.*+?^$\x7b\x7d()|[\]\\]/g, "\\$&")` step. -/
def metachars : List Char :=
  ['.', '*', '+', '?', '^', '$', '\x7b', '\x7d', '(', ')', '|', '[', ']', '\\']

/-- Model of the escaping step: every regex metacharacter in a literal
citation name is prefixed with a backslash. -/
def escapeRegex (s : Str) : Str :=
  s.flatMap (fun c => if c ∈ metachars then ['\\', c] else [c])

/-- Interpreter for regex patterns that consist purely of literal atoms
(a backslash-escaped character, or a bare non-metacharacter).  Returns the
literal string such a pattern matches; returns `none` when the pattern is
not such a sequence (a bare metacharacter changes the regex's meaning or
makes it fail to compile, and a dangling backslash is a compile error). -/
def parseLiteralSeq : Str → Option Str
  | [] => some []
  | c :: rest =>
    if c = '\\' then
      match rest with
      | [] => none
      | d :: rest2 => (parseLiteralSeq rest2).map (fun t => d :: t)
    else if c ∈ metachars then none
    else (parseLiteralSeq rest).map (fun t => c :: t)

/-- Length-descending order used by `.sort((a, b) => b.length - a.length)`. -/
def lenGe (a b : Str) : Prop := b.length ≤ a.length

instance : DecidableRel lenGe := fun a b => Nat.decLe b.length a.length

instance : IsTotal Str lenGe := ⟨fun a b => Nat.le_total b.length a.length⟩

instance : IsTrans Str lenGe := ⟨fun _ _ _ h1 h2 => Nat.le_trans h2 h1⟩

/-- Model of the `.sort((a, b) => b.length - a.length)` call: a stable sort
placing longer names first (JavaScript's sort is required to be stable). -/
def sortNames (names : List Str) : List Str := List.insertionSort lenGe names

/-- The alternation of escaped literal names, tried at one text position:
the first name in the (length-sorted) list that is a prefix of the
remaining text wins, mirroring regex alternation order.  Empty names are
skipped (a regex match of the alternation always consumes at least the
matched literal). -/
def matchAt (names : List Str) (s : Str) : Option Str :=
  names.find? (fun n => !n.isEmpty && n.isPrefixOf s)

/-- Model of `text.split(regex)` where the whole pattern is one capture
group: scan left to right; at each position run the matcher; on a match
emit the pending plain run and the captured match, then continue after it.
Even-indexed results are the unmatched runs, odd-indexed results the
captures, exactly as in JavaScript.  `fuel` bounds the recursion; each
step consumes at least one character, so `fuel = text.length` is exact. -/
def splitStep (m : Str → Option Str) : Nat → Str → Str → List Str
  | _, acc, [] => [acc.reverse]
  | 0, acc, s => [acc.reverse ++ s]
  | fuel + 1, acc, c :: rest =>
    match m (c :: rest) with
    | some n =>
      if n ≠ [] ∧ n.isPrefixOf (c :: rest) = true then
        acc.reverse :: n :: splitStep m fuel [] ((c :: rest).drop n.length)
      else
        splitStep m fuel (c :: acc) rest
    | none => splitStep m fuel (c :: acc) rest

/-- The parts list produced by `text.split(regex)` for a matcher `m`. -/
def splitParts (m : Str → Option Str) (text : Str) : List Str :=
  splitStep m text.length [] text

/-- One output segment of the highlighter: plain text or an `<em>` element. -/
inductive Seg where
  | plain : Str → Seg
  | emph : Str → Seg
deriving DecidableEq

/-- The text carried by a segment. -/
def Seg.text : Seg → Str
  | .plain t => t
  | .emph t => t

/-- Concatenation of the text of a list of segments. -/
def segsText (l : List Seg) : Str := (l.map Seg.text).flatten

/-- Model of `italicizeCaseNames` from src/unnamed/part_000 and part_002:
sort the citation table longest-first, split the text on the escaped
alternation, and tag each part as emphasis iff it is a member of the
(sorted) table.  The `text = []` arm models the `if (!text) return text`
guard. -/
def italicizeCaseNames (names : List Str) (text : Str) : List Seg :=
  if text = [] then [Seg.plain text]
  else
    (splitParts (matchAt (sortNames names)) text).map
      (fun part => if (sortNames names).contains part then Seg.emph part else Seg.plain part)

/-- Model of the rendering loop of src/scotus-website/src/lib/formatters.js:
`parts.map((part, i) => !part ? null : i % 2 === 1 ? em(part) : part)
.filter(Boolean)` — empty parts are dropped and odd-indexed parts become
emphasis. -/
def renderByIndex : Nat → List Str → List Seg
  | _, [] => []
  | i, p :: rest =>
    if p = [] then renderByIndex (i + 1) rest
    else (if i % 2 = 1 then Seg.emph p else Seg.plain p) :: renderByIndex (i + 1) rest

/-- Model of `italicizeCaseNames` from src/scotus-website/src/lib/formatters.js
with its combined regex abstracted as an arbitrary matcher `m` (the real
matcher is the "X v. Y" grammar rule in alternation with the escaped
single-name list). -/
def italicizeSplit (m : Str → Option Str) (text : Str) : List Seg :=
  if text = [] then [Seg.plain text]
  else renderByIndex 0 (splitParts m text)

/-- The highlighter call together with its effect on the shared citation
table: the `if (!text) return text` guard returns before the sort, leaving
the table untouched; otherwise `CASE_NAMES.sort(...)` sorts the
module-level array in place, so the table after the call is the
length-sorted table. -/
def italicizeWithTable (table : List Str) (text : Str) : List Seg × List Str :=
  if text = [] then ([Seg.plain text], table)
  else (italicizeCaseNames table text, sortNames table)

/-- The `SINGLE_CASE_NAMES` table of src/unnamed/part_000 (the constants
module imported by src/scotus-website/src/lib/formatters.js). -/
def SINGLE_CASE_NAMES : List Str :=
  (["Humphrey’s Executor", "Humphrey\x27s Executor", "Loper Bright",
    "Seila Law", "Curtiss-Wright", "Dames & Moore", "Brown & Williamson",
    "Chevron", "Youngstown", "Algonquin", "Gundy", "Whitman", "Morrison",
    "Collins"]).map String.data

/-! ### Highlighter lemmas -/

theorem prefix_append_drop {n s : Str} (h : n <+: s) : n ++ s.drop n.length = s := by
  obtain ⟨t, rfl⟩ := h
  simp

theorem flatten_splitStep (m : Str → Option Str) :
    ∀ (fuel : Nat) (acc s : Str), (splitStep m fuel acc s).flatten = acc.reverse ++ s := by
  intro fuel
  induction fuel with
  | zero => intro acc s; cases s <;> simp [splitStep]
  | succ fuel ih =>
    intro acc s
    cases s with
    | nil => simp [splitStep]
    | cons c rest =>
      rw [splitStep]
      split
      next n hm =>
        by_cases hn : n ≠ [] ∧ n.isPrefixOf (c :: rest) = true
        · have hp : n ++ (c :: rest).drop n.length = c :: rest :=
            prefix_append_drop (List.isPrefixOf_iff_prefix.mp hn.2)
          rw [if_pos hn]
          simp only [List.flatten_cons, ih, List.reverse_nil, List.nil_append]
          rw [hp]
        · rw [if_neg hn]
          simpa using ih (c :: acc) rest
      next hm => simpa using ih (c :: acc) rest

theorem flatten_splitParts (m : Str → Option Str) (text : Str) :
    (splitParts m text).flatten = text := by
  simpa using flatten_splitStep m text.length [] text

theorem segsText_map_tag (f : Str → Seg) (h : ∀ p, (f p).text = p) (l : List Str) :
    segsText (l.map f) = l.flatten := by
  have hf : Seg.text ∘ f = id := funext h
  simp [segsText, List.map_map, hf]

theorem segsText_renderByIndex :
    ∀ (i : Nat) (parts : List Str), segsText (renderByIndex i parts) = parts.flatten := by
  intro i parts
  induction parts generalizing i with
  | nil => simp [renderByIndex, segsText]
  | cons p rest ih =>
    rw [renderByIndex]
    by_cases hp : p = []
    · simp [hp, ih]
    · by_cases hi : i % 2 = 1 <;> simp [hp, hi, segsText, Seg.text] at ih ⊢ <;> rw [ih]

/-- C1: for every input text string and every list of known citation names,
concatenating the segments returned by the highlighter (`italicizeCaseNames`,
in both its list-only form and the formatters.js form with an arbitrary
combined matcher) in order yields a string equal to the original input. -/
theorem C1_highlighter_roundTrip (names : List Str) (m : Str → Option Str) (text : Str) :
    segsText (italicizeCaseNames names text) = text ∧
    segsText (italicizeSplit m text) = text := by
  constructor
  · unfold italicizeCaseNames
    by_cases ht : text = []
    · simp [ht, segsText, Seg.text]
    · rw [if_neg ht, segsText_map_tag _ (fun p => by split <;> rfl), flatten_splitParts]
  · unfold italicizeSplit
    by_cases ht : text = []
    · simp [ht, segsText, Seg.text]
    · rw [if_neg ht, segsText_renderByIndex, flatten_splitParts]

/-- C8: the escaping step rewrites every literal citation name into a regex
pattern that is a pure sequence of literal atoms — it compiles (no throw)
and matches exactly the original name, so pathological characters in names
degrade to literal matching rather than an error. -/
theorem C8_escape_literal (s : Str) : parseLiteralSeq (escapeRegex s) = some s := by
  induction s with
  | nil => rfl
  | cons c t ih =>
    have hcons : escapeRegex (c :: t) = (if c ∈ metachars then ['\\', c] else [c]) ++ escapeRegex t := rfl
    by_cases hc : c ∈ metachars
    · rw [hcons, if_pos hc]
      show parseLiteralSeq ('\\' :: c :: escapeRegex t) = some (c :: t)
      simp [parseLiteralSeq, ih]
    · rw [hcons, if_neg hc]
      show parseLiteralSeq (c :: escapeRegex t) = some (c :: t)
      have hcb : c ≠ '\\' := fun h => hc (h ▸ (by decide : '\\' ∈ metachars))
      rw [parseLiteralSeq.eq_def]
      simp only [hcb, if_false, hc, ih]
      rfl

theorem find_first_longest {l : List Str} (hs : l.Pairwise lenGe) {p : Str → Bool} {m b : Str}
    (hf : l.find? p = some m) (hb : b ∈ l) (hpb : p b = true) : b.length ≤ m.length := by
  induction l with
  | nil => simp at hf
  | cons a t ih =>
    cases hpa : p a with
    | true =>
      rw [List.find?_cons_of_pos _ hpa] at hf
      cases hf
      rcases List.mem_cons.mp hb with rfl | hbt
      · exact Nat.le_refl _
      · exact (List.pairwise_cons.mp hs).1 b hbt
    | false =>
      rw [List.find?_cons_of_neg _ (by simp [hpa])] at hf
      have hbt : b ∈ t := by
        rcases List.mem_cons.mp hb with rfl | hbt
        · rw [hpb] at hpa; cases hpa
        · exact hbt
      exact ih (List.pairwise_cons.mp hs).2 hf hbt

/-- C4 (amended): at any text position the highlighter's alternation
prefers the most specific (longest) matching alias: if a citation name
`n2` (in particular one containing a shorter listed name `n1` as a
substring) matches at the current position, then the match the scanner
selects there is at least as long as `n2`.  The original universal claim
fails when an earlier overlapping match consumes part of the longer
name's occurrence (see the counterexample). -/
theorem C4_amended (names : List Str) (n1 n2 s : Str)
    (h1 : n1 ∈ names) (h2 : n2 ∈ names) (hsub : containsSub n2 n1 = true)
    (hlen : n1.length < n2.length) (hne : n2 ≠ []) (hpre : n2.isPrefixOf s = true) :
    ∃ m, matchAt (sortNames names) s = some m ∧ n2.length ≤ m.length := by
  have hmem : n2 ∈ sortNames names := ((List.perm_insertionSort lenGe names).mem_iff).mpr h2
  have hp2 : (!n2.isEmpty && n2.isPrefixOf s) = true := by
    simp [hpre, List.isEmpty_iff, hne]
  have hsome : ((sortNames names).find? (fun n => !n.isEmpty && n.isPrefixOf s)).isSome := by
    rw [List.find?_isSome]
    exact ⟨n2, hmem, hp2⟩
  obtain ⟨m, hm⟩ := Option.isSome_iff_exists.mp hsome
  refine ⟨m, hm, ?_⟩
  exact find_first_longest (List.sorted_insertionSort lenGe names) hm hmem hp2

/-- C4 counterexample: with the citation list `["ab", "babc"]` (where
`"ab"` is a substring of `"babc"`) and input `"ababc"`, the longer name
`"babc"` occurs in the text but is never emphasized as a single segment —
the scanner's earlier match of `"ab"` at position 0 consumes its first
character, and only the shorter name is emphasized. -/
theorem C4_counterexample :
    containsSub ("babc".data) ("ab".data) = true ∧
    Seg.emph ("babc".data) ∉ italicizeCaseNames ["ab".data, "babc".data] ("ababc".data) ∧
    Seg.emph ("ab".data) ∈ italicizeCaseNames ["ab".data, "babc".data] ("ababc".data) := by
  decide

/-- C9 counterexample: the global citation table is mutated by the
highlighter — `CASE_NAMES.sort(...)` sorts the shared array in place, so
after one call on the real `SINGLE_CASE_NAMES` table of
src/unnamed/part_000 the element order differs from its process-start
order (e.g. "Curtiss-Wright" has moved ahead of "Seila Law"). -/
theorem C9_counterexample :
    (italicizeWithTable SINGLE_CASE_NAMES ("Chevron deference".data)).2 ≠ SINGLE_CASE_NAMES := by
  decide

/-- C9 (amended): the highlighter call preserves the table's contents as a
multiset but, for nonempty text, reorders them in place: after such a call
the shared table is a permutation of its previous contents, sorted by
descending length (the stable length-descending sort the call performs);
a call with empty (falsy) text returns before the sort and leaves the
table exactly as it was. -/
theorem C9_amended (table : List Str) (text : Str) :
    ((italicizeWithTable table text).2).Perm table ∧
    (text ≠ [] → List.Sorted lenGe (italicizeWithTable table text).2) ∧
    (text = [] → (italicizeWithTable table text).2 = table) := by
  by_cases ht : text = []
  · rw [italicizeWithTable, if_pos ht]
    exact ⟨List.Perm.refl table, fun h => absurd ht h, fun _ => rfl⟩
  · rw [italicizeWithTable, if_neg ht]
    exact ⟨List.perm_insertionSort lenGe table,
      fun _ => List.sorted_insertionSort lenGe table, fun h => absurd h ht⟩

/-- Witness for C9_amended at the real table and a concrete nonempty text:
the call's resulting table is a permutation of `SINGLE_CASE_NAMES` and,
the text being nonempty, is sorted by descending length. -/
theorem C9_amended_witness :
    ((italicizeWithTable SINGLE_CASE_NAMES ("Chevron deference".data)).2).Perm
        SINGLE_CASE_NAMES ∧
    ("Chevron deference".data ≠ [] →
      List.Sorted lenGe (italicizeWithTable SINGLE_CASE_NAMES ("Chevron deference".data)).2) ∧
    ("Chevron deference".data = [] →
      (italicizeWithTable SINGLE_CASE_NAMES ("Chevron deference".data)).2
        = SINGLE_CASE_NAMES) :=
  C9_amended SINGLE_CASE_NAMES ("Chevron deference".data)

/-- Witness for C4_amended at the spec's own example: with the list
`["Brown", "Brown & Williamson"]` and the text "Brown & Williamson
Tobacco", the scanner's match at position 0 is at least as long as
"Brown & Williamson". -/
theorem C4_amended_witness :
    ∃ m, matchAt (sortNames ["Brown".data, "Brown & Williamson".data])
        ("Brown & Williamson Tobacco".data) = some m ∧
      ("Brown & Williamson".data).length ≤ m.length :=
  C4_amended ["Brown".data, "Brown & Williamson".data] ("Brown".data)
    ("Brown & Williamson".data) ("Brown & Williamson Tobacco".data)
    (by decide) (by decide) (by decide) (by decide) (by decide) (by decide)

/-! ### Vote-Side Classifier (src/scotus-website/src/app/cases/[caseId]/CaseDetailClient.jsx, lines 32-44) -/

/-- One side of a case's prediction configuration. -/
structure Side where
  label : Str
  matchTerms : List Str
deriving DecidableEq

/-- The two-side configuration (`caseData.predictionSides`). -/
structure Sides where
  sideA : Side
  sideB : Side
deriving DecidableEq

/-- A per-justice vote prediction (only the fields the classifier reads). -/
structure Vote where
  justice : Str
  prediction : Str
deriving DecidableEq

/-- `sides.sideX.matchTerms.some((t) => v.prediction.toLowerCase().includes(t))`. -/
def matchesSide (s : Side) (v : Vote) : Bool :=
  s.matchTerms.any (fun t => containsSub (lower v.prediction) t)

/-- `caseData.justiceVotes.filter((v) => ...sideA...).length`. -/
def sideACount (votes : List Vote) (sides : Sides) : Nat :=
  (votes.filter (matchesSide sides.sideA)).length

/-- `const sideBCount = 9 - sideACount`. -/
def sideBCount (votes : List Vote) (sides : Sides) : Nat :=
  9 - sideACount votes sides

/-- `sideACount > sideBCount ? sides.sideA.label : sides.sideB.label`. -/
def majorityLabel (votes : List Vote) (sides : Sides) : Str :=
  if sideBCount votes sides < sideACount votes sides then sides.sideA.label
  else sides.sideB.label

/-- `Math.max(sideACount, sideBCount)`. -/
def majorityCount (votes : List Vote) (sides : Sides) : Nat :=
  max (sideACount votes sides) (sideBCount votes sides)

/-- `Math.min(sideACount, sideBCount)`. -/
def minorityCount (votes : List Vote) (sides : Sides) : Nat :=
  min (sideACount votes sides) (sideBCount votes sides)

/-- The rendered string `` `${majorityCount}–${minorityCount}: ${majorityLabel}` ``. -/
def predictedOutcome (votes : List Vote) (sides : Sides) : Str :=
  natToStr (majorityCount votes sides) ++ ['–'] ++
    natToStr (minorityCount votes sides) ++ (": ".data) ++ majorityLabel votes sides

/-- Modelled from the spec (claim C3's reading): side B's tally counts the
votes whose prediction text matches side B's own keyword list. -/
def sideBCountSpec (votes : List Vote) (sides : Sides) : Nat :=
  (votes.filter (matchesSide sides.sideB)).length

/-- Modelled from the spec (claim C3's reading): both tallies come from the
sides' own keyword lists, and the higher-count side is reported as the
majority, rendered "majority–minority: label". -/
def predictedOutcomeSpec (votes : List Vote) (sides : Sides) : Str :=
  let a := sideACount votes sides
  let b := sideBCountSpec votes sides
  natToStr (max a b) ++ ['–'] ++ natToStr (min a b) ++ (": ".data) ++
    (if b < a then sides.sideA.label else sides.sideB.label)

/-- Nine votes that match neither side's keyword list. -/
def abstainVotes : List Vote :=
  (List.range 9).map (fun i => ⟨natToStr i, "abstain".data⟩)

/-- The two-side configuration of the spec's classifier scenario. -/
def sidesAF : Sides :=
  ⟨⟨"Petitioner".data, ["against".data]⟩, ⟨"Respondent".data, ["for".data]⟩⟩

/-- C3 counterexample: with sideA keywords ["against"], sideB keywords
["for"], and nine votes predicting "abstain" (matching neither list), the
code counts all nine votes for side B (9 = 9 - 0) and renders
"9–0: Respondent", while the claim's per-side tallies would give side B
zero votes and render "0–0: Respondent" — the counts are not tallies of
per-side keyword classifications. -/
theorem C3_counterexample :
    sideBCount abstainVotes sidesAF ≠ sideBCountSpec abstainVotes sidesAF ∧
    predictedOutcome abstainVotes sidesAF ≠ predictedOutcomeSpec abstainVotes sidesAF := by
  decide

theorem filter_not_length (p : α → Bool) (l : List α) :
    (l.filter p).length + (l.filter (fun a => !p a)).length = l.length := by
  induction l with
  | nil => rfl
  | cons a t ih =>
    cases hp : p a <;> simp [List.filter_cons, hp, ← ih] <;> omega

/-- C3 (amended): only side A is matched against its own keyword list; side
B receives the remaining votes (9 minus side A's tally) regardless of its
keyword list.  When each of the nine votes matches side B's list exactly
when it fails side A's list (in particular when every vote matches exactly
one side), the code's tallies coincide with the claim's per-side tallies
and the rendered outcome is the claimed "majority–minority: majority
label" string. -/
theorem C3_amended (votes : List Vote) (sides : Sides) (h9 : votes.length = 9)
    (hx : ∀ v ∈ votes, matchesSide sides.sideB v = !matchesSide sides.sideA v) :
    sideBCount votes sides = sideBCountSpec votes sides ∧
    predictedOutcome votes sides = predictedOutcomeSpec votes sides := by
  have hb : sideBCountSpec votes sides = sideBCount votes sides := by
    have hfc : votes.filter (matchesSide sides.sideB)
        = votes.filter (fun v => !matchesSide sides.sideA v) :=
      List.filter_congr hx
    have hadd := filter_not_length (matchesSide sides.sideA) votes
    rw [sideBCountSpec, hfc, sideBCount, sideACount]
    omega
  constructor
  · exact hb.symm
  · rw [predictedOutcome, predictedOutcomeSpec, majorityCount, minorityCount, majorityLabel, hb]

/-- The nine votes of the spec's classifier scenario: six predictions
containing "against", three containing "for". -/
def scenarioVotes : List Vote :=
  (List.range 6).map (fun i => ⟨natToStr i, "votes against".data⟩) ++
    (List.range 3).map (fun i => ⟨natToStr (6 + i), "votes for".data⟩)

/-- Witness for C3_amended at the spec's scenario: 6 "against" votes and 3
"for" votes under sideA=["against"], sideB=["for"] satisfy the amended
hypotheses, and the rendered outcome is "6–3: Petitioner". -/
theorem C3_amended_witness :
    (sideBCount scenarioVotes sidesAF = sideBCountSpec scenarioVotes sidesAF ∧
      predictedOutcome scenarioVotes sidesAF = predictedOutcomeSpec scenarioVotes sidesAF) ∧
    predictedOutcome scenarioVotes sidesAF = ("6–3: Petitioner".data) :=
  ⟨C3_amended scenarioVotes sidesAF (by decide) (by decide), by decide⟩

/-- C10: with exactly nine justice votes, the two rendered counts always
sum to 9, the reported majority count is at least 5, a tie is impossible,
and side B's tally is exactly the number of votes that match none of side
A's keywords (votes matching neither side still count toward side B). -/
theorem C10_nine_vote_tally (votes : List Vote) (sides : Sides) (h9 : votes.length = 9) :
    majorityCount votes sides + minorityCount votes sides = 9 ∧
    5 ≤ majorityCount votes sides ∧
    sideACount votes sides ≠ sideBCount votes sides ∧
    sideBCount votes sides = (votes.filter (fun v => !matchesSide sides.sideA v)).length := by
  have hle : sideACount votes sides ≤ 9 := by
    have := List.length_filter_le (matchesSide sides.sideA) votes
    rw [sideACount]; omega
  have hadd := filter_not_length (matchesSide sides.sideA) votes
  have hB : sideBCount votes sides = 9 - sideACount votes sides := rfl
  rcases Nat.le_total (sideACount votes sides) (sideBCount votes sides) with h | h
  · rw [majorityCount, minorityCount, Nat.max_eq_right h, Nat.min_eq_left h]
    refine ⟨by omega, by omega, by omega, ?_⟩
    rw [sideBCount, sideACount]; omega
  · rw [majorityCount, minorityCount, Nat.max_eq_left h, Nat.min_eq_right h]
    refine ⟨by omega, by omega, by omega, ?_⟩
    rw [sideBCount, sideACount]; omega

/-- Witness for C10 at the spec's scenario votes (nine votes). -/
theorem C10_witness :
    majorityCount scenarioVotes sidesAF + minorityCount scenarioVotes sidesAF = 9 ∧
    5 ≤ majorityCount scenarioVotes sidesAF ∧
    sideACount scenarioVotes sidesAF ≠ sideBCount scenarioVotes sidesAF ∧
    sideBCount scenarioVotes sidesAF =
      (scenarioVotes.filter (fun v => !matchesSide sidesAF.sideA v)).length :=
  C10_nine_vote_tally scenarioVotes sidesAF (by decide)

/-! ### Docket data model and home-page sorter (src/scotus-website/src/app/page.jsx, lines 11-27) -/

/-- A timeline of docket dates (an object of date fields in the JSON). -/
abbrev Timeline := List (Str × Str)

/-- One entry of the merged case list (`allCases` elements): the fields read
by the sorter, grouper and merger. -/
structure MergedCase where
  id : Str
  name : Str
  docket : Str
  status : Str
  hasPrediction : Bool
  timeline : Option Timeline
deriving DecidableEq

/-- `{ Argued: 0, Granted: 1, Decided: 2 }[status] ?? 99`. -/
def stageOrder (status : Str) : Nat :=
  if status = "Argued".data then 0
  else if status = "Granted".data then 1
  else if status = "Decided".data then 2
  else 99

/-- The comparator passed to `[...cases].sort((a, b) => ...)`: predicted
cases first, then unpredicted by pipeline stage, else tie. -/
def cmp (a b : MergedCase) : Int :=
  if a.hasPrediction && !b.hasPrediction then -1
  else if !a.hasPrediction && b.hasPrediction then 1
  else if !a.hasPrediction && !b.hasPrediction then
    if stageOrder a.status ≠ stageOrder b.status then
      (stageOrder a.status : Int) - (stageOrder b.status : Int)
    else 0
  else 0

/-- The non-strict order induced by the comparator ("a need not come after b"). -/
def jsLe (a b : MergedCase) : Prop := cmp a b ≤ 0

instance : DecidableRel jsLe := fun a b => inferInstanceAs (Decidable (cmp a b ≤ 0))

/-- The sort key the comparator realises: predicted entries rank 0, and
unpredicted entries rank `stageOrder + 1`. -/
def rank (c : MergedCase) : Nat :=
  if c.hasPrediction then 0 else stageOrder c.status + 1

theorem cmp_le_iff (a b : MergedCase) : cmp a b ≤ 0 ↔ rank a ≤ rank b := by
  cases ha : a.hasPrediction <;> cases hb : b.hasPrediction <;>
    simp only [cmp, rank, ha, hb, Bool.not_true, Bool.not_false, Bool.true_and,
      Bool.false_and, Bool.and_true, Bool.and_false, Bool.and_self, if_true, if_false,
      Bool.false_eq_true, Bool.true_eq_false]
  · split
    · omega
    · omega
  · simp
  · simp
  · simp

instance : IsTotal MergedCase jsLe :=
  ⟨fun a b => by
    rw [jsLe, jsLe, cmp_le_iff, cmp_le_iff]
    exact Nat.le_total (rank a) (rank b)⟩

instance : IsTrans MergedCase jsLe :=
  ⟨fun a b c h1 h2 => by
    rw [jsLe, cmp_le_iff] at h1 h2 ⊢
    exact Nat.le_trans h1 h2⟩

/-- Model of `sortCases` from src/scotus-website/src/app/page.jsx:
JavaScript's `Array.prototype.sort` is required to be stable, and insertion
sort on the comparator's non-strict order is the stable sort. -/
def sortCases (cases : List MergedCase) : List MergedCase :=
  List.insertionSort jsLe cases

theorem filter_orderedInsert_pos {r : α → α → Prop} [DecidableRel r] (p : α → Bool)
    (a : α) (l : List α) (hpa : p a = true) (hall : ∀ b, p b = true → r a b) :
    (List.orderedInsert r a l).filter p = a :: l.filter p := by
  induction l with
  | nil => simp [List.orderedInsert, hpa]
  | cons b t ih =>
    rw [List.orderedInsert]
    by_cases hr : r a b
    · simp [hr, List.filter_cons, hpa]
    · have hpb : p b = false := by
        cases hpb : p b
        · rfl
        · exact absurd (hall b hpb) hr
      rw [if_neg hr]
      simp [List.filter_cons, hpb, ih]

theorem filter_orderedInsert_neg {r : α → α → Prop} [DecidableRel r] (p : α → Bool)
    (a : α) (l : List α) (hpa : p a = false) :
    (List.orderedInsert r a l).filter p = l.filter p := by
  induction l with
  | nil => simp [List.orderedInsert, hpa]
  | cons b t ih =>
    rw [List.orderedInsert]
    by_cases hr : r a b
    · simp [hr, List.filter_cons, hpa]
    · rw [if_neg hr]
      simp [List.filter_cons, ih]

theorem filter_insertionSort {r : α → α → Prop} [DecidableRel r] (p : α → Bool)
    (l : List α) (hall : ∀ a b, p a = true → p b = true → r a b) :
    (List.insertionSort r l).filter p = l.filter p := by
  induction l with
  | nil => rfl
  | cons a t ih =>
    rw [List.insertionSort]
    cases hpa : p a
    · rw [filter_orderedInsert_neg p a _ hpa, ih, List.filter_cons, hpa]
      simp
    · rw [filter_orderedInsert_pos p a _ hpa (fun b hpb => hall a b hpa hpb), ih,
        List.filter_cons, hpa]
      simp

/-- C5: the sorter's output is ordered by the comparator (predicted entries
before unpredicted ones; among unpredicted entries, by the fixed stage
rank Argued(0) < Granted(1) < Decided(2) < unknown(99), realised by
`stageOrder`), it is a permutation of the input, and the sort is stable:
for every rank class the entries of that class appear in their original
relative order. -/
theorem C5_sortCases_ordered_stable (cases : List MergedCase) :
    (sortCases cases).Pairwise jsLe ∧
    (sortCases cases).Pairwise (fun a b => b.hasPrediction = true → a.hasPrediction = true) ∧
    (sortCases cases).Pairwise (fun a b => a.hasPrediction = false → b.hasPrediction = false →
      stageOrder a.status ≤ stageOrder b.status) ∧
    (sortCases cases).Perm cases ∧
    ∀ k, (sortCases cases).filter (fun c => rank c == k) = cases.filter (fun c => rank c == k) := by
  have hsorted : (sortCases cases).Pairwise jsLe :=
    List.sorted_insertionSort jsLe cases
  refine ⟨hsorted, ?_, ?_, List.perm_insertionSort jsLe cases, ?_⟩
  · refine hsorted.imp ?_
    intro a b hab hbp
    rw [jsLe, cmp_le_iff] at hab
    rw [rank, rank, hbp, if_pos rfl] at hab
    by_cases hap : a.hasPrediction = true
    · exact hap
    · rw [if_neg hap] at hab; omega
  · refine hsorted.imp ?_
    intro a b hab hap hbp
    rw [jsLe, cmp_le_iff, rank, rank, hap, hbp] at hab
    simp only [Bool.false_eq_true, if_false] at hab
    omega
  · intro k
    refine filter_insertionSort _ cases ?_
    intro a b hpa hpb
    rw [jsLe, cmp_le_iff]
    have ha : rank a = k := by simpa using hpa
    have hb : rank b = k := by simpa using hpb
    omega

/-! ### Client-side filter and grouper (DocketSection, src/scotus-website/src/components, second file of ReasoningBlock.jsx) -/

/-- `const GROUP_ORDER = ["Argued", "Granted", "Decided"]`. -/
def GROUP_ORDER : List Str := (["Argued", "Granted", "Decided"]).map String.data

/-- Model of `filteredCases`: a blank query (`!searchQuery.trim()`) returns
the list unchanged; otherwise the query is lower-cased (not trimmed) and
matched as a substring against the lower-cased name and docket number. -/
def filteredCases (cases : List MergedCase) (q : Str) : List MergedCase :=
  if jsTrim q = [] then cases
  else
    cases.filter (fun c =>
      containsSub (lower c.name) (lower q) || containsSub (lower c.docket) (lower q))

/-- Modelled from the spec (claim C7's reading): the list is always
narrowed by case-insensitive substring match of the query against each
entry's name or docket number. -/
def filteredCasesSpec (cases : List MergedCase) (q : Str) : List MergedCase :=
  cases.filter (fun c =>
    containsSub (lower c.name) (lower q) || containsSub (lower c.docket) (lower q))

/-- One step of the `grouped[key].push(c)` accumulation over a JS object
(string keys keep insertion order): append to the existing group, or add a
new key at the end. -/
def pushAssoc (m : List (Str × List MergedCase)) (k : Str) (c : MergedCase) :
    List (Str × List MergedCase) :=
  match m with
  | [] => [(k, [c])]
  | (k2, g) :: rest => if k2 = k then (k2, g ++ [c]) :: rest else (k2, g) :: pushAssoc rest k c

/-- The `for (const c of unpredictedCases) { grouped[c.status].push(c) }` loop. -/
def groupByStatus (l : List MergedCase) : List (Str × List MergedCase) :=
  l.foldl (fun m c => pushAssoc m c.status c) []

/-- Object lookup `grouped[status]`, with `[]` for a missing key. -/
def lookupGroup (m : List (Str × List MergedCase)) (k : Str) : List MergedCase :=
  match m.find? (fun e => e.1 = k) with
  | some e => e.2
  | none => []

/-- Model of the `groups` memo of `DocketSection`: filter the query, keep
the unpredicted entries, group them by status, and emit the nonempty
groups in `GROUP_ORDER` order. -/
def groupsFor (cases : List MergedCase) (q : Str) : List (Str × List MergedCase) :=
  let unpred := (filteredCases cases q).filter (fun c => !c.hasPrediction)
  let grouped := groupByStatus unpred
  (GROUP_ORDER.filter (fun st => !(lookupGroup grouped st).isEmpty)).map
    (fun st => (st, lookupGroup grouped st))

theorem lookupGroup_nil (k : Str) : lookupGroup [] k = [] := rfl

theorem lookupGroup_cons (k2 : Str) (g : List MergedCase)
    (rest : List (Str × List MergedCase)) (k : Str) :
    lookupGroup ((k2, g) :: rest) k = if k2 = k then g else lookupGroup rest k := by
  by_cases h : k2 = k
  · rw [lookupGroup, List.find?_cons_of_pos _ (by simp [h]), if_pos h]
  · rw [lookupGroup, List.find?_cons_of_neg _ (by simp [h]), if_neg h, lookupGroup]

theorem lookupGroup_pushAssoc (m : List (Str × List MergedCase)) (k : Str) (c : MergedCase)
    (st : Str) :
    lookupGroup (pushAssoc m k c) st =
      if st = k then lookupGroup m st ++ [c] else lookupGroup m st := by
  induction m with
  | nil =>
    rw [pushAssoc, lookupGroup_cons, lookupGroup_nil]
    by_cases hst : st = k
    · rw [if_pos hst.symm, if_pos hst, List.nil_append]
    · rw [if_neg (fun h => hst h.symm), if_neg hst]
  | cons e rest ih =>
    obtain ⟨k2, g⟩ := e
    rw [pushAssoc]
    by_cases h2 : k2 = k
    · rw [if_pos h2, lookupGroup_cons, lookupGroup_cons]
      by_cases hst : k2 = st
      · rw [if_pos hst, if_pos (hst.symm.trans h2), if_pos hst]
      · rw [if_neg hst]
        by_cases hstk : st = k
        · exact absurd (h2.trans hstk.symm) hst
        · rw [if_neg hstk, if_neg hst]
    · rw [if_neg h2, lookupGroup_cons, lookupGroup_cons]
      by_cases hst : k2 = st
      · rw [if_pos hst, if_pos hst, if_neg (fun h => h2 (hst.trans h))]
      · rw [if_neg hst, if_neg hst, ih]

theorem lookupGroup_foldl (l : List MergedCase) (m : List (Str × List MergedCase)) (st : Str) :
    lookupGroup (l.foldl (fun m c => pushAssoc m c.status c) m) st =
      lookupGroup m st ++ l.filter (fun c => c.status = st) := by
  induction l generalizing m with
  | nil => simp
  | cons c rest ih =>
    rw [List.foldl_cons, ih, lookupGroup_pushAssoc, List.filter_cons]
    by_cases hst : st = c.status
    · simp [hst, List.append_assoc]
    · have : ¬(c.status = st) := fun h => hst h.symm
      simp [hst, this]

theorem lookupGroup_groupByStatus (l : List MergedCase) (st : Str) :
    lookupGroup (groupByStatus l) st = l.filter (fun c => c.status = st) := by
  rw [groupByStatus, lookupGroup_foldl]
  rfl

theorem groups_filterMap (sts : List Str) (l : List MergedCase) :
    (sts.filter (fun st => !(lookupGroup (groupByStatus l) st).isEmpty)).map
        (fun st => (st, lookupGroup (groupByStatus l) st)) =
      sts.filterMap (fun st =>
        if (l.filter (fun c => c.status = st)).isEmpty then none
        else some (st, l.filter (fun c => c.status = st))) := by
  induction sts with
  | nil => rfl
  | cons st rest ih =>
    simp only [lookupGroup_groupByStatus] at ih ⊢
    simp only [List.filter_cons, List.filterMap_cons]
    cases hg : (List.filter (fun c => decide (c.status = st)) l).isEmpty with
    | true =>
      simp only [hg, Bool.not_true, Bool.false_eq_true, if_false, if_true, ih]
    | false =>
      simp only [hg, Bool.not_false, if_true, Bool.false_eq_true, if_false, List.map_cons, ih]

/-- C7 (amended): for a non-blank query the grouper first narrows the list
by case-insensitive substring match of the query against each entry's name
or docket number, and (for every query) the emitted groups are exactly the
nonempty status classes of the filtered entries lacking a detailed
prediction, in the fixed order Argued, Granted, Decided, with empty groups
omitted.  The original claim fails only for blank (whitespace-only)
queries, which leave the list unfiltered (see the counterexample). -/
theorem C7_amended (cases : List MergedCase) (q : Str) (hq : jsTrim q ≠ []) :
    filteredCases cases q = filteredCasesSpec cases q ∧
    groupsFor cases q =
      GROUP_ORDER.filterMap (fun st =>
        if (((filteredCases cases q).filter (fun c => !c.hasPrediction)).filter
            (fun c => c.status = st)).isEmpty then none
        else some (st, ((filteredCases cases q).filter (fun c => !c.hasPrediction)).filter
          (fun c => c.status = st))) := by
  constructor
  · rw [filteredCases, if_neg hq, filteredCasesSpec]
  · rw [groupsFor]
    exact groups_filterMap GROUP_ORDER _

/-- A one-entry case list whose name and docket contain no whitespace. -/
def caseNoSpace : MergedCase :=
  ⟨"x".data, "AB".data, "12".data, "Argued".data, false, none⟩

/-- C7 counterexample: for the whitespace query " " the code returns the
list unchanged (the `!searchQuery.trim()` guard), but the claim's
unconditional substring narrowing would drop an entry whose name and
docket number contain no space — filtering does not happen for every
query. -/
theorem C7_counterexample :
    filteredCases [caseNoSpace] [' '] ≠ filteredCasesSpec [caseNoSpace] [' '] := by
  decide

/-- Witness for C7_amended at a concrete non-blank query: query "ab"
matches the name "AB" case-insensitively, and the single unpredicted
Argued entry forms the only group. -/
theorem C7_amended_witness :
    (jsTrim ("ab".data) ≠ [] ∧
      filteredCases [caseNoSpace] ("ab".data) = filteredCasesSpec [caseNoSpace] ("ab".data) ∧
      groupsFor [caseNoSpace] ("ab".data) =
        GROUP_ORDER.filterMap (fun st =>
          if (((filteredCases [caseNoSpace] ("ab".data)).filter
              (fun c => !c.hasPrediction)).filter (fun c => c.status = st)).isEmpty then none
          else some (st, ((filteredCases [caseNoSpace] ("ab".data)).filter
            (fun c => !c.hasPrediction)).filter (fun c => c.status = st)))) ∧
    groupsFor [caseNoSpace] ("ab".data) = [("Argued".data, [caseNoSpace])] :=
  ⟨⟨by decide, C7_amended [caseNoSpace] ("ab".data) (by decide)⟩, by decide⟩

/-! ### Docket Merger (src/unnamed/part_002, getFullDocket, lines 74-136) -/

/-- A predicted case from `index.json` (the fields the merger reads; the
spread `...predicted` carries them into the merged entry). -/
structure PredCase where
  id : Str
  name : Str
  docket : Str
  status : Str
deriving DecidableEq

/-- A raw entry of `docket_status.json`. -/
structure DocketEntry where
  name : Str
  docket : Str
  argued : Bool
  decided : Bool
  timeline : Option Timeline
deriving DecidableEq

/-- `entry.decided ? "Decided" : entry.argued ? "Argued" : "Granted"`. -/
def deriveStatus (e : DocketEntry) : Str :=
  if e.decided then "Decided".data
  else if e.argued then "Argued".data
  else "Granted".data

/-- `{ ...predicted, hasPrediction: true, timeline: entry.timeline }`. -/
def mkPredMerged (p : PredCase) (e : DocketEntry) : MergedCase :=
  ⟨p.id, p.name, p.docket, p.status, true, e.timeline⟩

/-- The lightweight entry built for an unpredicted docket number. -/
def mkLight (k : Str) (e : DocketEntry) : MergedCase :=
  ⟨k, jsTrim e.name, ("No. ".data) ++ e.docket, deriveStatus e, false,
    some (e.timeline.getD [])⟩

/-- `{ ...c, hasPrediction: true, timeline: {} }` (the safety-net entry). -/
def mkSafety (p : PredCase) : MergedCase :=
  ⟨p.id, p.name, p.docket, p.status, true, some []⟩

/-- `predictedCases.find((c) => c.docket.includes(docketNum))`. -/
def firstMatch (preds : List PredCase) (k : Str) : Option PredCase :=
  preds.find? (fun c => containsSub c.docket k)

/-- The `for (const [docketNum, entry] of Object.entries(docket.cases))`
loop: the first component of the result is the `allCases` list built from
the docket entries, the second the final `matchedDocketNumbers` set
(which stores predicted-case ids). -/
def mergeDocket (preds : List PredCase) :
    List (Str × DocketEntry) → List Str → List MergedCase × List Str
  | [], matched => ([], matched)
  | (k, e) :: rest, matched =>
    match firstMatch preds k with
    | some p =>
      if p.id ∈ matched then mergeDocket preds rest matched
      else
        (mkPredMerged p e :: (mergeDocket preds rest (p.id :: matched)).1,
          (mergeDocket preds rest (p.id :: matched)).2)
    | none =>
      (mkLight k e :: (mergeDocket preds rest matched).1,
        (mergeDocket preds rest matched).2)

/-- Model of `getFullDocket`'s `allCases` output: the docket loop followed
by the safety net appending every predicted case whose id was never
recorded as matched. -/
def getFullDocket (preds : List PredCase) (docket : List (Str × DocketEntry)) :
    List MergedCase :=
  (mergeDocket preds docket []).1 ++
    (preds.filter (fun c => !decide (c.id ∈ (mergeDocket preds docket []).2))).map mkSafety

/-- The ids recorded by the loop, in docket order with multiplicity: for
each docket entry, the id of the first predicted case whose docket string
contains the entry's docket number. -/
def hits (preds : List PredCase) (docket : List (Str × DocketEntry)) : List Str :=
  docket.filterMap (fun ke => (firstMatch preds ke.1).map PredCase.id)

/-- First-occurrence deduplication relative to an already-seen set. -/
def firstDedup : List Str → List Str → List Str
  | _, [] => []
  | seen, x :: xs => if x ∈ seen then firstDedup seen xs else x :: firstDedup (x :: seen) xs

/-- The docket numbers of the entries matching no predicted case (those
emitted as lightweight entries). -/
def lightKeys (preds : List PredCase) (docket : List (Str × DocketEntry)) : List Str :=
  (docket.filter (fun ke => (firstMatch preds ke.1).isNone)).map Prod.fst

/-- Modelled from the spec (claim C2's reading): the predicted cases never
matched by any full-docket entry. -/
def unmatchedPredsSpec (preds : List PredCase) (docket : List (Str × DocketEntry)) :
    List PredCase :=
  preds.filter (fun c => !(docket.any (fun ke => containsSub c.docket ke.1)))

/-- A predicted case consolidated under two docket numbers. -/
def predConsolidated : PredCase :=
  ⟨"a".data, "Case A".data, "24-1287, 24-1288".data, "Argued".data⟩

/-- Two docket entries both covered by `predConsolidated`'s docket string. -/
def docketTwo : List (Str × DocketEntry) :=
  [("24-1287".data, ⟨"Case A".data, "24-1287".data, true, false, none⟩),
   ("24-1288".data, ⟨"Case A (second docket)".data, "24-1288".data, true, false, none⟩)]

/-- C2 counterexample: with one predicted case consolidated under two
docket numbers, the second full-docket entry matches a predicted case that
was already merged and is dropped entirely: the output is a single merged
entry, so not every full-docket entry appears, and the total length (1) is
not the number of full-docket entries (2) plus the number of never-matched
predicted cases (0). -/
theorem C2_counterexample :
    getFullDocket [predConsolidated] docketTwo =
      [mkPredMerged predConsolidated
        ⟨"Case A".data, "24-1287".data, true, false, none⟩] ∧
    (getFullDocket [predConsolidated] docketTwo).length ≠
      docketTwo.length + (unmatchedPredsSpec [predConsolidated] docketTwo).length := by
  decide

theorem hits_cons_some {preds : List PredCase} {k : Str} {p : PredCase}
    (hfm : firstMatch preds k = some p) (e : DocketEntry)
    (rest : List (Str × DocketEntry)) :
    hits preds ((k, e) :: rest) = p.id :: hits preds rest := by
  simp [hits, List.filterMap_cons, hfm]

theorem hits_cons_none {preds : List PredCase} {k : Str}
    (hfm : firstMatch preds k = none) (e : DocketEntry)
    (rest : List (Str × DocketEntry)) :
    hits preds ((k, e) :: rest) = hits preds rest := by
  simp [hits, List.filterMap_cons, hfm]

theorem mem_mergeDocket_matched (preds : List PredCase)
    (docket : List (Str × DocketEntry)) (matched : List Str) (x : Str) :
    x ∈ (mergeDocket preds docket matched).2 ↔
      x ∈ hits preds docket ∨ x ∈ matched := by
  induction docket generalizing matched with
  | nil => simp [mergeDocket, hits]
  | cons ke rest ih =>
    obtain ⟨k, e⟩ := ke
    rw [mergeDocket]
    split
    next p hfm =>
      rw [hits_cons_some hfm]
      by_cases hpm : p.id ∈ matched
      · rw [if_pos hpm, ih matched, List.mem_cons]
        constructor
        · intro h; tauto
        · rintro ((rfl | h) | h)
          · exact Or.inr hpm
          · exact Or.inl h
          · exact Or.inr h
      · rw [if_neg hpm]
        show x ∈ (mergeDocket preds rest (p.id :: matched)).2 ↔ _
        rw [ih (p.id :: matched), List.mem_cons, List.mem_cons]
        tauto
    next hfm =>
      rw [hits_cons_none hfm]
      show x ∈ (mergeDocket preds rest matched).2 ↔ _
      exact ih matched

theorem length_firstDedup_le (l : List Str) : ∀ seen, (firstDedup seen l).length ≤ l.length := by
  induction l with
  | nil => intro seen; simp [firstDedup]
  | cons x xs ih =>
    intro seen
    rw [firstDedup]
    by_cases hx : x ∈ seen
    · rw [if_pos hx]
      exact Nat.le_succ_of_le (ih seen)
    · rw [if_neg hx]
      simpa using ih (x :: seen)

theorem length_mergeDocket (preds : List PredCase) (docket : List (Str × DocketEntry)) :
    ∀ matched, (mergeDocket preds docket matched).1.length =
      docket.length - (hits preds docket).length +
        (firstDedup matched (hits preds docket)).length := by
  induction docket with
  | nil => intro matched; simp [mergeDocket, hits, firstDedup]
  | cons ke rest ih =>
    intro matched
    obtain ⟨k, e⟩ := ke
    have hle : (hits preds rest).length ≤ rest.length :=
      List.length_filterMap_le _ _
    rw [mergeDocket]
    split
    next p hfm =>
      rw [hits_cons_some hfm]
      by_cases hpm : p.id ∈ matched
      · rw [if_pos hpm, ih matched, firstDedup, if_pos hpm]
        simp only [List.length_cons]
        omega
      · rw [if_neg hpm]
        show (mkPredMerged p e :: (mergeDocket preds rest (p.id :: matched)).1).length = _
        rw [List.length_cons, ih (p.id :: matched), firstDedup, if_neg hpm]
        simp only [List.length_cons]
        omega
    next hfm =>
      rw [hits_cons_none hfm]
      show (mkLight k e :: (mergeDocket preds rest matched).1).length = _
      rw [List.length_cons, ih matched, List.length_cons]
      omega

theorem mergeDocket_struct (preds : List PredCase) (docket : List (Str × DocketEntry)) :
    ∀ matched, ∃ new : List Str,
      (mergeDocket preds docket matched).2 = new ++ matched ∧
      new.Nodup ∧
      (∀ x ∈ new, x ∉ matched) ∧
      (∀ x ∈ new, x ∈ preds.map PredCase.id) ∧
      ((mergeDocket preds docket matched).1.map (fun mc => mc.id)).Perm
        (new ++ lightKeys preds docket) := by
  induction docket with
  | nil =>
    intro matched
    exact ⟨[], by simp [mergeDocket], List.nodup_nil, by simp, by simp,
      by simp [mergeDocket, lightKeys]⟩
  | cons ke rest ih =>
    intro matched
    obtain ⟨k, e⟩ := ke
    rw [mergeDocket]
    split
    next p hfm =>
      have hlk : lightKeys preds ((k, e) :: rest) = lightKeys preds rest := by
        simp [lightKeys, List.filter_cons, hfm]
      by_cases hpm : p.id ∈ matched
      · rw [if_pos hpm, hlk]
        exact ih matched
      · rw [if_neg hpm, hlk]
        obtain ⟨new, h2, hnd, hnm, hsub, hperm⟩ := ih (p.id :: matched)
        refine ⟨new ++ [p.id], ?_, ?_, ?_, ?_, ?_⟩
        · rw [h2]
          simp
        · have hpn : p.id ∉ new := fun hmem => (hnm p.id hmem) (List.mem_cons_self _ _)
          simp [List.nodup_append, hnd, hpn]
        · intro x hx
          rcases List.mem_append.mp hx with hx | hx
          · exact fun hm => (hnm x hx) (List.mem_cons_of_mem _ hm)
          · rw [List.mem_singleton.mp hx]
            exact hpm
        · intro x hx
          rcases List.mem_append.mp hx with hx | hx
          · exact hsub x hx
          · rw [List.mem_singleton.mp hx]
            exact List.mem_map_of_mem _ (List.mem_of_find?_eq_some hfm)
        · rw [List.map_cons]
          have : new ++ [p.id] ++ lightKeys preds rest = new ++ p.id :: lightKeys preds rest := by
            simp
          rw [this]
          exact (hperm.cons p.id).trans List.perm_middle.symm
    next hfm =>
      obtain ⟨new, h2, hnd, hnm, hsub, hperm⟩ := ih matched
      refine ⟨new, h2, hnd, hnm, hsub, ?_⟩
      have hlk : lightKeys preds ((k, e) :: rest) = k :: lightKeys preds rest := by
        simp [lightKeys, List.filter_cons, hfm]
      rw [hlk, List.map_cons]
      exact (hperm.cons k).trans List.perm_middle.symm

/-- C2 (amended): each full-docket entry yields at most one output entry —
entries whose first-matching predicted case was already merged via an
earlier docket number are dropped.  Under distinct docket numbers,
distinct predicted ids, and docket numbers disjoint from predicted ids,
the output contains no duplicate identifiers, and its total length is the
number of full-docket entries minus the number of such dropped duplicate
matches, plus the number of predicted cases never recorded as matched. -/
theorem C2_amended (preds : List PredCase) (docket : List (Str × DocketEntry))
    (hD : (docket.map Prod.fst).Nodup)
    (hP : (preds.map PredCase.id).Nodup)
    (hdisj : ∀ k ∈ docket.map Prod.fst, k ∉ preds.map PredCase.id) :
    ((getFullDocket preds docket).map (fun mc => mc.id)).Nodup ∧
    (getFullDocket preds docket).length =
      docket.length -
          ((hits preds docket).length - (firstDedup [] (hits preds docket)).length) +
        (preds.filter (fun c => !decide (c.id ∈ hits preds docket))).length := by
  obtain ⟨new, h2, hnd, hnm, hsub, hperm⟩ := mergeDocket_struct preds docket []
  have h2' : (mergeDocket preds docket []).2 = new := by simpa using h2
  have hlksub : List.Sublist (lightKeys preds docket) (docket.map Prod.fst) :=
    (List.filter_sublist docket).map Prod.fst
  have hlknd : (lightKeys preds docket).Nodup := hD.sublist hlksub
  have hlkkeys : ∀ x ∈ lightKeys preds docket, x ∈ docket.map Prod.fst :=
    fun x hx => hlksub.subset hx
  have hfc : preds.filter (fun c => !decide (c.id ∈ (mergeDocket preds docket []).2))
      = preds.filter (fun c => !decide (c.id ∈ hits preds docket)) := by
    apply List.filter_congr
    intro c hc
    have hiff : c.id ∈ (mergeDocket preds docket []).2 ↔ c.id ∈ hits preds docket := by
      rw [mem_mergeDocket_matched]
      simp
    rw [decide_eq_decide.mpr hiff]
  constructor
  · have hids1 : ((mergeDocket preds docket []).1.map (fun mc => mc.id)).Nodup := by
      refine hperm.nodup_iff.mpr ?_
      rw [List.nodup_append]
      refine ⟨hnd, hlknd, ?_⟩
      intro a ha hb
      exact hdisj a (hlkkeys a hb) (hsub a ha)
    have hsafe_ids :
        ((preds.filter (fun c => !decide (c.id ∈ (mergeDocket preds docket []).2))).map
            mkSafety).map (fun mc => mc.id)
          = (preds.filter (fun c => !decide (c.id ∈ (mergeDocket preds docket []).2))).map
              PredCase.id := by
      rw [List.map_map]
      rfl
    rw [getFullDocket, List.map_append, List.nodup_append]
    refine ⟨hids1, ?_, ?_⟩
    · rw [hsafe_ids]
      exact hP.sublist ((List.filter_sublist preds).map PredCase.id)
    · intro a ha hb
      rw [hsafe_ids] at hb
      obtain ⟨c, hcf, rfl⟩ := List.mem_map.mp hb
      obtain ⟨hcp, hcond⟩ := List.mem_filter.mp hcf
      have hcnot : c.id ∉ (mergeDocket preds docket []).2 := by
        intro hmem
        rw [Bool.not_eq_eq_eq_not] at hcond
        simp [hmem] at hcond
      rcases List.mem_append.mp (hperm.mem_iff.mp ha) with hnew | hlk
      · exact hcnot (h2' ▸ hnew)
      · exact hdisj _ (hlkkeys _ hlk) (List.mem_map_of_mem PredCase.id hcp)
  · rw [getFullDocket, List.length_append, length_mergeDocket preds docket [],
      List.length_map, hfc]
    have hhle : (hits preds docket).length ≤ docket.length :=
      List.length_filterMap_le _ _
    have hdle : (firstDedup [] (hits preds docket)).length ≤ (hits preds docket).length :=
      length_firstDedup_le _ _
    omega

/-- The predicted case A of the spec's end-to-end scenario. -/
def predA : PredCase := ⟨"a".data, "Case A".data, "24-1287".data, "Argued".data⟩

/-- The predicted case B of the spec's end-to-end scenario (docket number
absent from the full docket). -/
def predB : PredCase := ⟨"b".data, "Case B".data, "25-9999".data, "Granted".data⟩

/-- The full docket of the spec's end-to-end scenario. -/
def docketW : List (Str × DocketEntry) :=
  [("24-1287".data, ⟨"Case A".data, "24-1287".data, true, false, none⟩),
   ("30-0001".data, ⟨" New Case ".data, "30-0001".data, false, false, none⟩)]

/-- Witness for C2_amended at the spec's end-to-end scenario. -/
theorem C2_amended_witness :
    ((getFullDocket [predA, predB] docketW).map (fun mc => mc.id)).Nodup ∧
    (getFullDocket [predA, predB] docketW).length =
      docketW.length -
          ((hits [predA, predB] docketW).length -
            (firstDedup [] (hits [predA, predB] docketW)).length) +
        ([predA, predB].filter
          (fun c => !decide (c.id ∈ hits [predA, predB] docketW))).length :=
  C2_amended [predA, predB] docketW (by decide) (by decide) (by decide)

/-- C6: a predicted case whose docket string matches no docket number of
the full docket is still emitted by the safety net, flagged as having a
detailed prediction and with an empty timeline; and when it is the only
predicted case, the output has exactly N + 1 entries for a full docket of
N entries. -/
theorem C6_safety_net (preds : List PredCase) (docket : List (Str × DocketEntry))
    (c : PredCase) (hc : c ∈ preds)
    (hno : ∀ ke ∈ docket, containsSub c.docket ke.1 = false)
    (hP : (preds.map PredCase.id).Nodup) :
    mkSafety c ∈ getFullDocket preds docket ∧
    (preds = [c] → (getFullDocket preds docket).length = docket.length + 1) := by
  have hcid : c.id ∉ (mergeDocket preds docket []).2 := by
    rw [mem_mergeDocket_matched]
    rintro (hh | hh)
    · rw [hits, List.mem_filterMap] at hh
      obtain ⟨ke, hke, hkm⟩ := hh
      rw [Option.map_eq_some'] at hkm
      obtain ⟨p, hfm, hpid⟩ := hkm
      have hfm' : preds.find? (fun x => containsSub x.docket ke.1) = some p := hfm
      have hpmem : p ∈ preds := List.mem_of_find?_eq_some hfm'
      have hpcond : containsSub p.docket ke.1 = true := by
        simpa using List.find?_some hfm'
      have hpc : p = c := List.inj_on_of_nodup_map hP hpmem hc hpid
      rw [hpc, hno ke hke] at hpcond
      cases hpcond
    · cases hh
  constructor
  · rw [getFullDocket]
    refine List.mem_append_right _ (List.mem_map_of_mem _ ?_)
    rw [List.mem_filter]
    exact ⟨hc, by simp [hcid]⟩
  · rintro rfl
    have hhits : hits [c] docket = [] := by
      rw [hits, List.filterMap_eq_nil_iff]
      intro ke hke
      simp [firstMatch, List.find?, hno ke hke]
    rw [getFullDocket, List.length_append, length_mergeDocket, hhits, List.length_map]
    have hfilter : ([c].filter (fun x => !decide (x.id ∈ (mergeDocket [c] docket []).2)))
        = [c] := by
      rw [List.filter_cons]
      simp [hcid]
    rw [hfilter]
    simp [firstDedup]

/-- Witness for C6 at the spec's scenario: predicted case B (docket
"25-9999") is absent from the two-entry full docket, is still emitted via
the safety net, and the output has 2 + 1 entries. -/
theorem C6_safety_net_witness :
    mkSafety predB ∈ getFullDocket [predB] docketW ∧
    ([predB] = [predB] → (getFullDocket [predB] docketW).length = docketW.length + 1) :=
  C6_safety_net [predB] docketW predB (by decide) (by decide) (by decide)

end Scotus
